import Mathlib

/-!
Verification of the core of `apply-edit`: a Go tool that parses a
SEARCH/REPLACE diff and applies a unique exact-match edit to file content.
Strings are modelled as lists of characters; the two core functions
`parseDiff` and `performEdit` are shallow embeddings of the Go functions of
the same names in `main.go`.
-/

/-- Strings, modelled as lists of characters. -/
abbrev Str := List Char

/-- Embedding of Go `unicode.IsSpace`: the Unicode white-space characters
recognised by `strings.TrimSpace`. -/
def isGoSpace (c : Char) : Bool :=
  c.toNat = 0x9 || c.toNat = 0xA || c.toNat = 0xB || c.toNat = 0xC ||
  c.toNat = 0xD || c.toNat = 0x20 || c.toNat = 0x85 || c.toNat = 0xA0 ||
  c.toNat = 0x1680 || (0x2000 <= c.toNat && c.toNat <= 0x200A) ||
  c.toNat = 0x2028 || c.toNat = 0x2029 || c.toNat = 0x202F ||
  c.toNat = 0x205F || c.toNat = 0x3000

/-- Embedding of Go `strings.HasPrefix s pat`: does `s` start with `pat`? -/
def startsWith : Str → Str → Bool
  | _, [] => true
  | [], _ :: _ => false
  | c :: s, p :: ps => c == p && startsWith s ps

/-- Embedding of Go `strings.Index hay pat`: index of the first occurrence of
`pat` in `hay`, `none` when there is no occurrence (Go returns `-1`). -/
def strIndex (hay pat : Str) : Option Nat :=
  if startsWith hay pat then some 0
  else
    match hay with
    | [] => none
    | _ :: rest => (strIndex rest pat).map (· + 1)

/-- Embedding of Go `strings.ReplaceAll s crlf lf`: a single left-to-right
pass rewriting every carriage-return + line-feed pair to a line feed. -/
def normalizeCRLF : Str → Str
  | [] => []
  | [c] => [c]
  | c :: d :: rest =>
    if c = '\r' ∧ d = '\n' then '\n' :: normalizeCRLF rest
    else c :: normalizeCRLF (d :: rest)

/-- Helper for `splitLines`: push a character onto the first line. -/
def consHead (c : Char) : List Str → List Str
  | [] => [[c]]
  | l :: ls => (c :: l) :: ls

/-- Embedding of Go `strings.Split s lf`: split on newline characters;
the empty string splits into one empty line. -/
def splitLines : Str → List Str
  | [] => [[]]
  | c :: rest =>
    if c = '\n' then [] :: splitLines rest
    else consHead c (splitLines rest)

/-- Embedding of Go `strings.Join ls sep` for a one-character separator. -/
def joinWith (sep : Char) : List Str → Str
  | [] => []
  | [l] => l
  | l :: ls => l ++ sep :: joinWith sep ls

/-- Left half of Go `strings.TrimSpace`. -/
def trimLeft (s : Str) : Str := s.dropWhile isGoSpace

/-- Right half of Go `strings.TrimSpace`. -/
def trimRight0 (s : Str) : Str := (s.reverse.dropWhile isGoSpace).reverse

/-- Embedding of Go `strings.TrimSpace`. -/
def trimSpace (s : Str) : Str := trimRight0 (trimLeft s)

/-- The search-section marker line of the diff format. -/
def searchMarker : Str := "<<<<<<< SEARCH".data

/-- The separator marker of the diff format. -/
def sepMarker : Str := "=======".data

/-- The replace-section marker line of the diff format. -/
def replaceMarker : Str := ">>>>>>> REPLACE".data

/-- The scanner state of `parseDiff`: the collected search and replace lines
and the two mode flags of the Go loop. -/
structure ScanState where
  searchLines : List Str
  replaceLines : List Str
  inSearch : Bool
  inReplace : Bool
deriving DecidableEq

/-- One iteration of the `parseDiff` scanning loop of `main.go`. -/
def scanLine (st : ScanState) (line : Str) : ScanState :=
  if startsWith line searchMarker then
    { st with inSearch := true, inReplace := false }
  else if startsWith line sepMarker then
    { st with inSearch := false, inReplace := true }
  else if startsWith line replaceMarker then
    { st with inSearch := false, inReplace := false }
  else if st.inSearch then
    { st with searchLines := st.searchLines ++ [line] }
  else if st.inReplace then
    { st with replaceLines := st.replaceLines ++ [line] }
  else st

/-- The initial scanner state: nothing collected, both flags clear. -/
def initState : ScanState := ⟨[], [], false, false⟩

/-- The whole scanning loop of `parseDiff` over a list of lines. -/
def scanLines (ls : List Str) : ScanState := ls.foldl scanLine initState

/-- The parse error of `parseDiff` (`"no search block found in diff"`). -/
inductive ParseError where
  | noSearchBlockFound
deriving DecidableEq

/-- Embedding of Go `parseDiff` from `main.go`: trim the diff text, split it
into lines, run the marker scanner, fail when no search lines were
collected, and otherwise join each collected section with newlines. -/
def parseDiff (diff : Str) : Except ParseError (Str × Str) :=
  let st := scanLines (splitLines (trimSpace diff))
  if st.searchLines.length = 0 then
    .error .noSearchBlockFound
  else
    .ok (joinWith '\n' st.searchLines, joinWith '\n' st.replaceLines)

/-- The errors of `performEdit`. `searchNotFound` carries the literal
un-normalized search text, as the Go error message
`"search block not found in file:\n%s"` interpolates `searchBlock`;
`ambiguousEdit` is the `"multiple occurrences of search block found"`
error. -/
inductive EditError where
  | searchNotFound (searchBlock : Str)
  | ambiguousEdit
deriving DecidableEq

/-- Embedding of Go `performEdit` from `main.go`: normalize CRLF in content
and search, locate the first occurrence, reject a second occurrence in the
remainder after the match, and otherwise splice in the replace block
verbatim. -/
def performEdit (content searchBlock replaceBlock : Str) : Except EditError Str :=
  let normalizedContent := normalizeCRLF content
  let normalizedSearch := normalizeCRLF searchBlock
  match strIndex normalizedContent normalizedSearch with
  | none => .error (.searchNotFound searchBlock)
  | some index =>
    if strIndex (normalizedContent.drop (index + normalizedSearch.length)) normalizedSearch ≠ none then
      .error .ambiguousEdit
    else
      .ok (normalizedContent.take index ++ replaceBlock ++
           normalizedContent.drop (index + normalizedSearch.length))

/-- `pat` occurs in `hay` at position `i` (positions range over
`0 … hay.length`, so the empty pattern occurs at every position). -/
def occursAt (hay pat : Str) (i : Nat) : Prop :=
  i ≤ hay.length ∧ startsWith (hay.drop i) pat = true

instance (hay pat : Str) (i : Nat) : Decidable (occursAt hay pat i) := by
  unfold occursAt; infer_instance

/-- The number of positions of `hay` at which `pat` occurs. -/
def countOcc (hay pat : Str) : Nat :=
  ((List.range (hay.length + 1)).filter
    (fun i => startsWith (hay.drop i) pat)).length

/-- A line that starts with none of the three diff markers. -/
def noMarkerLine (l : Str) : Prop :=
  startsWith l searchMarker = false ∧ startsWith l sepMarker = false ∧
  startsWith l replaceMarker = false

instance (l : Str) : Decidable (noMarkerLine l) := by
  unfold noMarkerLine; infer_instance

-- sanity checks against the Go test-suite

example : performEdit "Hello world\nThis is a test".data "Hello world".data
    "Hello universe".data = .ok "Hello universe\nThis is a test".data := by rfl

example : performEdit "line 1\r\nline 2\r\nline 3".data "line 2\r\n".data
    "new line 2\n".data = .ok "line 1\nnew line 2\nline 3".data := by rfl

example : performEdit "unix\nwindows\r\nmac\rend".data "windows\r\n".data
    "normalized\n".data = .ok "unix\nnormalized\nmac\rend".data := by rfl

example : performEdit "duplicate\nsome text\nduplicate\nmore text".data
    "duplicate".data "unique".data = .error .ambiguousEdit := by rfl

example : performEdit "".data "".data "new content".data = .error .ambiguousEdit := by rfl

example : parseDiff "".data = .error .noSearchBlockFound := by rfl

example : parseDiff "<<<<<<< SEARCH\nold code\n=======\n>>>>>>> REPLACE".data
    = .ok ("old code".data, "".data) := by rfl

example : parseDiff "\n<<<<<<< SEARCH\ntest line\n=======\nreplacement line\n>>>>>>> REPLACE\n".data
    = .ok ("test line".data, "replacement line".data) := by rfl

example : parseDiff "<<<<<<< SEARCH\nsearch text".data
    = .ok ("search text".data, "".data) := by rfl

example : parseDiff "<<<<<<< SEARCH\n=======\nreplacement\n>>>>>>> REPLACE".data
    = .error .noSearchBlockFound := by rfl

-- lemmas about startsWith and occurrence positions

theorem startsWith_nil_pat (s : Str) : startsWith s [] = true := by
  cases s <;> rfl

theorem startsWith_cons_cons (c p : Char) (s ps : Str) :
    startsWith (c :: s) (p :: ps) = (c == p && startsWith s ps) := rfl

theorem startsWith_length_le :
    ∀ (s p : Str), startsWith s p = true → p.length ≤ s.length
  | _, [], _ => by simp
  | [], _ :: _, h => by simp [startsWith] at h
  | c :: s, p :: ps, h => by
    rw [startsWith_cons_cons, Bool.and_eq_true] at h
    simpa using startsWith_length_le s ps h.2

theorem startsWith_append_self :
    ∀ (p t : Str), startsWith (p ++ t) p = true
  | [], t => startsWith_nil_pat t
  | p :: ps, t => by
    rw [List.cons_append, startsWith_cons_cons, Bool.and_eq_true]
    exact ⟨beq_self_eq_true p, startsWith_append_self ps t⟩

theorem startsWith_iff_append (s p : Str) :
    startsWith s p = true ↔ ∃ t, s = p ++ t := by
  induction p generalizing s with
  | nil => simp [startsWith_nil_pat]
  | cons q qs ih =>
    cases s with
    | nil => simp [startsWith]
    | cons c cs =>
      rw [startsWith_cons_cons, Bool.and_eq_true, ih]
      constructor
      · rintro ⟨hq, t, rfl⟩
        exact ⟨t, by simp [beq_iff_eq.mp hq]⟩
      · rintro ⟨t, heq⟩
        rw [List.cons_append] at heq
        cases heq
        exact ⟨beq_self_eq_true q, t, rfl⟩

theorem occursAt_zero (hay pat : Str) :
    occursAt hay pat 0 ↔ startsWith hay pat = true := by
  simp [occursAt]

theorem occursAt_succ_cons (c : Char) (t pat : Str) (i : Nat) :
    occursAt (c :: t) pat (i + 1) ↔ occursAt t pat i := by
  simp [occursAt, Nat.succ_le_succ_iff]

theorem occursAt_nil_iff (pat : Str) (i : Nat) :
    occursAt [] pat i ↔ i = 0 ∧ startsWith [] pat = true := by
  constructor
  · rintro ⟨hle, hsw⟩
    have : i = 0 := Nat.le_antisymm (by simpa using hle) (Nat.zero_le i)
    subst this
    exact ⟨rfl, by simpa using hsw⟩
  · rintro ⟨rfl, hsw⟩
    exact ⟨by simp, by simpa using hsw⟩

theorem occursAt_add_length_le (hay pat : Str) (i : Nat)
    (h : occursAt hay pat i) : i + pat.length ≤ hay.length := by
  obtain ⟨hle, hsw⟩ := h
  have := startsWith_length_le _ _ hsw
  rw [List.length_drop] at this
  omega

theorem strIndex_none_iff (hay pat : Str) :
    strIndex hay pat = none ↔ ∀ i, ¬ occursAt hay pat i := by
  induction hay with
  | nil =>
    rw [strIndex]
    by_cases h : startsWith [] pat
    · simp only [if_pos h]
      constructor
      · intro hc; cases hc
      · intro hall
        exact absurd ((occursAt_nil_iff pat 0).mpr ⟨rfl, h⟩) (hall 0)
    · simp only [if_neg h]
      constructor
      · intro _ i hocc
        exact h ((occursAt_nil_iff pat i).mp hocc).2
      · intro _; trivial
  | cons c t ih =>
    rw [strIndex]
    by_cases h : startsWith (c :: t) pat
    · simp only [if_pos h]
      constructor
      · intro hc; cases hc
      · intro hall
        exact absurd ((occursAt_zero _ pat).mpr h) (hall 0)
    · simp only [if_neg h]
      rw [Option.map_eq_none', ih]
      constructor
      · intro hall i hocc
        match i with
        | 0 => exact h ((occursAt_zero _ pat).mp hocc)
        | k + 1 => exact hall k ((occursAt_succ_cons c t pat k).mp hocc)
      · intro hall i hocc
        exact hall (i + 1) ((occursAt_succ_cons c t pat i).mpr hocc)

theorem strIndex_some_iff (hay pat : Str) : ∀ (i : Nat),
    strIndex hay pat = some i ↔
      occursAt hay pat i ∧ ∀ j, j < i → ¬ occursAt hay pat j := by
  induction hay with
  | nil =>
    intro i
    rw [strIndex]
    by_cases h : startsWith [] pat
    · simp only [if_pos h, Option.some.injEq]
      constructor
      · rintro rfl
        exact ⟨(occursAt_nil_iff pat 0).mpr ⟨rfl, h⟩, by omega⟩
      · rintro ⟨hocc, _⟩
        exact (((occursAt_nil_iff pat i).mp hocc).1).symm
    · simp only [if_neg h]
      constructor
      · intro hc; cases hc
      · rintro ⟨hocc, _⟩
        exact absurd ((occursAt_nil_iff pat i).mp hocc).2 h
  | cons c t ih =>
    intro i
    rw [strIndex]
    by_cases h : startsWith (c :: t) pat
    · simp only [if_pos h, Option.some.injEq]
      constructor
      · rintro rfl
        exact ⟨(occursAt_zero _ pat).mpr h, by omega⟩
      · rintro ⟨hocc, hmin⟩
        by_contra hne
        have hipos : 0 < i := Nat.pos_of_ne_zero (fun hh => hne hh.symm)
        exact hmin 0 hipos ((occursAt_zero _ pat).mpr h)
    · simp only [if_neg h, Option.map_eq_some']
      constructor
      · rintro ⟨n, hn, rfl⟩
        obtain ⟨hocc, hmin⟩ := (ih n).mp hn
        refine ⟨(occursAt_succ_cons c t pat n).mpr hocc, ?_⟩
        intro j hj hocc'
        match j with
        | 0 => exact h ((occursAt_zero _ pat).mp hocc')
        | k + 1 =>
          exact hmin k (by omega) ((occursAt_succ_cons c t pat k).mp hocc')
      · rintro ⟨hocc, hmin⟩
        match i with
        | 0 => exact absurd ((occursAt_zero _ pat).mp hocc) h
        | k + 1 =>
          refine ⟨k, (ih k).mpr ⟨(occursAt_succ_cons c t pat k).mp hocc, ?_⟩, rfl⟩
          intro j hj hocc'
          exact hmin (j + 1) (by omega) ((occursAt_succ_cons c t pat j).mpr hocc')

theorem occursAt_of_drop (hay pat : Str) (m k : Nat)
    (hm : m ≤ hay.length) (h : occursAt (hay.drop m) pat k) :
    occursAt hay pat (m + k) := by
  obtain ⟨hle, hsw⟩ := h
  rw [List.length_drop] at hle
  refine ⟨by omega, ?_⟩
  rwa [List.drop_drop] at hsw

theorem drop_occursAt (hay pat : Str) (m j : Nat)
    (hmj : m ≤ j) (h : occursAt hay pat j) :
    occursAt (hay.drop m) pat (j - m) := by
  obtain ⟨hle, hsw⟩ := h
  refine ⟨by rw [List.length_drop]; omega, ?_⟩
  rwa [List.drop_drop, Nat.add_sub_cancel' hmj]

theorem occursAt_iff_mem_filter (hay pat : Str) (j : Nat) :
    occursAt hay pat j ↔
      j ∈ (List.range (hay.length + 1)).filter
        (fun i => startsWith (hay.drop i) pat) := by
  rw [List.mem_filter, List.mem_range]
  constructor
  · rintro ⟨hle, hsw⟩
    exact ⟨by omega, hsw⟩
  · rintro ⟨hlt, hsw⟩
    exact ⟨by omega, hsw⟩

theorem countOcc_one_unique (hay pat : Str) (i j : Nat)
    (hc : countOcc hay pat = 1)
    (hi : occursAt hay pat i) (hj : occursAt hay pat j) : i = j := by
  unfold countOcc at hc
  obtain ⟨a, ha⟩ := List.length_eq_one.mp hc
  rw [occursAt_iff_mem_filter, ha, List.mem_singleton] at hi hj
  omega

-- helper lemmas about normalizeCRLF

theorem strIndex_nil_pat (hay : Str) : strIndex hay [] = some 0 :=
  (strIndex_some_iff hay [] 0).mpr
    ⟨⟨Nat.zero_le _, startsWith_nil_pat _⟩, by omega⟩

theorem normalizeCRLF_ne_nil : ∀ (s : Str), s ≠ [] → normalizeCRLF s ≠ []
  | [], h => absurd rfl h
  | [c], _ => by simp [normalizeCRLF]
  | c :: d :: rest, _ => by
    simp only [normalizeCRLF]
    by_cases h : c = '\r' ∧ d = '\n' <;> simp [h]

theorem normalizeCRLF_no_crlf :
    ∀ (s : Str), (∀ i, ¬ occursAt s ['\r', '\n'] i) → normalizeCRLF s = s
  | [], _ => rfl
  | [_], _ => rfl
  | c :: d :: rest, h => by
    have hcd : ¬ (c = '\r' ∧ d = '\n') := by
      rintro ⟨rfl, rfl⟩
      exact h 0 ⟨Nat.zero_le _, by simp [startsWith]⟩
    simp only [normalizeCRLF, if_neg hcd]
    have ih := normalizeCRLF_no_crlf (d :: rest)
      (fun i hi => h (i + 1) ((occursAt_succ_cons c _ _ i).mpr hi))
    rw [ih]

-- claim theorems about performEdit

/-- Claim C1, counterexample to the claim as stated: with empty content and
empty search, the normalized search occurs exactly once in the normalized
content (only at position 0), yet `performEdit` does not succeed — it fails
with the ambiguous-edit error. -/
theorem c1_counterexample :
    countOcc (normalizeCRLF []) (normalizeCRLF []) = 1 ∧
    performEdit [] [] ['x'] = .error .ambiguousEdit :=
  ⟨by decide, rfl⟩

/-- Claim C1 (amended: the search must be nonempty): whenever the
CRLF-normalized search is nonempty and occurs exactly once in the
CRLF-normalized content, `performEdit` succeeds and returns the normalized
content before the match, then the replace block verbatim, then the
normalized content after the match. -/
theorem c1_performEdit_unique_success (c s r : Str) (i : Nat)
    (hs : s ≠ [])
    (hcount : countOcc (normalizeCRLF c) (normalizeCRLF s) = 1)
    (hocc : occursAt (normalizeCRLF c) (normalizeCRLF s) i) :
    performEdit c s r = .ok ((normalizeCRLF c).take i ++ r ++
      (normalizeCRLF c).drop (i + (normalizeCRLF s).length)) := by
  have hnsne : normalizeCRLF s ≠ [] := normalizeCRLF_ne_nil s hs
  have hnslen : (normalizeCRLF s).length ≠ 0 :=
    fun h0 => hnsne (List.length_eq_zero.mp h0)
  have hfirst : strIndex (normalizeCRLF c) (normalizeCRLF s) = some i := by
    rw [strIndex_some_iff]
    refine ⟨hocc, fun j hj hocc' => ?_⟩
    have := countOcc_one_unique _ _ i j hcount hocc hocc'
    omega
  have hrem : strIndex
      ((normalizeCRLF c).drop (i + (normalizeCRLF s).length))
      (normalizeCRLF s) = none := by
    rw [strIndex_none_iff]
    intro k hk
    have hm : i + (normalizeCRLF s).length ≤ (normalizeCRLF c).length := by
      have := occursAt_add_length_le _ _ i hocc
      omega
    have h2 := occursAt_of_drop _ _ _ k hm hk
    have := countOcc_one_unique _ _ i _ hcount hocc h2
    omega
  simp only [performEdit]
  rw [hfirst]
  simp [hrem]

/-- Claim C2, counterexample to the claim as stated: in content `aaa` the
search `aa` matches at the two distinct (overlapping) positions 0 and 1,
yet `performEdit` succeeds instead of failing with the ambiguous-edit
error, because the code only looks for a second occurrence at or after the
end of the first match. -/
theorem c2_counterexample :
    countOcc (normalizeCRLF "aaa".data) (normalizeCRLF "aa".data) = 2 ∧
    performEdit "aaa".data "aa".data "b".data = .ok "ba".data :=
  ⟨by decide, rfl⟩

/-- Claim C2 (amended: the two positions must not overlap): whenever the
normalized search occurs at a position `i` and again at a position `j` at
or after the end of the occurrence at `i`, `performEdit` fails with the
ambiguous-edit error and returns no content. -/
theorem c2_performEdit_ambiguous (c s r : Str) (i j : Nat)
    (hi : occursAt (normalizeCRLF c) (normalizeCRLF s) i)
    (hj : occursAt (normalizeCRLF c) (normalizeCRLF s) j)
    (hij : i + (normalizeCRLF s).length ≤ j) :
    performEdit c s r = .error .ambiguousEdit := by
  have hne : strIndex (normalizeCRLF c) (normalizeCRLF s) ≠ none :=
    fun h => (strIndex_none_iff _ _).mp h i hi
  obtain ⟨i0, hi0⟩ := Option.ne_none_iff_exists'.mp hne
  obtain ⟨hocc0, hmin0⟩ := (strIndex_some_iff _ _ i0).mp hi0
  have hi0le : i0 ≤ i := by
    by_contra hh
    exact hmin0 i (by omega) hi
  have hj' : occursAt
      ((normalizeCRLF c).drop (i0 + (normalizeCRLF s).length))
      (normalizeCRLF s) (j - (i0 + (normalizeCRLF s).length)) :=
    drop_occursAt _ _ _ j (by omega) hj
  have hremne : strIndex
      ((normalizeCRLF c).drop (i0 + (normalizeCRLF s).length))
      (normalizeCRLF s) ≠ none :=
    fun h => (strIndex_none_iff _ _).mp h _ hj'
  simp only [performEdit]
  rw [hi0]
  simp [hremne]

/-- Claim C3: `performEdit` fails with the multiple-occurrences error
exactly when the normalized search has a first occurrence in the normalized
content and another occurrence exists in the remainder of the normalized
content starting immediately after the end of that first match; being an
error, no new content is returned in that case. -/
theorem c3_performEdit_ambiguous_iff (c s r : Str) :
    performEdit c s r = .error .ambiguousEdit ↔
      ∃ i, (occursAt (normalizeCRLF c) (normalizeCRLF s) i ∧
             ∀ j, j < i → ¬ occursAt (normalizeCRLF c) (normalizeCRLF s) j) ∧
           ∃ k, occursAt
             ((normalizeCRLF c).drop (i + (normalizeCRLF s).length))
             (normalizeCRLF s) k := by
  cases h : strIndex (normalizeCRLF c) (normalizeCRLF s) with
  | none =>
    have hall := (strIndex_none_iff _ _).mp h
    simp only [performEdit]
    rw [h]
    simp only [Except.error.injEq]
    constructor
    · intro hc; cases hc
    · rintro ⟨i, ⟨hocc, _⟩, _⟩
      exact absurd hocc (hall i)
  | some i0 =>
    obtain ⟨hocc0, hmin0⟩ := (strIndex_some_iff _ _ i0).mp h
    by_cases hrem : strIndex
        ((normalizeCRLF c).drop (i0 + (normalizeCRLF s).length))
        (normalizeCRLF s) = none
    · have hall := (strIndex_none_iff _ _).mp hrem
      simp only [performEdit]
      rw [h]
      simp only [hrem, ne_eq, not_true_eq_false, if_false, ite_not]
      constructor
      · intro hc
        simp at hc
      · rintro ⟨i, ⟨hocc, hmin⟩, k, hk⟩
        have : strIndex (normalizeCRLF c) (normalizeCRLF s) = some i :=
          (strIndex_some_iff _ _ i).mpr ⟨hocc, hmin⟩
        rw [h, Option.some.injEq] at this
        subst this
        exact absurd hk (hall k)
    · obtain ⟨k0, hk0⟩ := Option.ne_none_iff_exists'.mp hrem
      obtain ⟨hocck, _⟩ := (strIndex_some_iff _ _ k0).mp hk0
      simp only [performEdit]
      rw [h]
      simp only [hrem, ne_eq, not_false_eq_true, if_true]
      constructor
      · intro _
        exact ⟨i0, ⟨hocc0, hmin0⟩, k0, hocck⟩
      · intro _
        trivial

/-- Claim C5: `performEdit` matches on the CRLF-normalized forms of content
and search and splices the replace block into the normalized content
verbatim; a string with no CRLF pair (in particular one whose carriage
returns are all lone) is left untouched by the normalization; and every
CRLF pair is rewritten to a single LF. -/
theorem c5_performEdit_normalization :
    (∀ c s r res, performEdit c s r = .ok res →
      ∃ i, occursAt (normalizeCRLF c) (normalizeCRLF s) i ∧
        res = (normalizeCRLF c).take i ++ r ++
          (normalizeCRLF c).drop (i + (normalizeCRLF s).length)) ∧
    (∀ s, (∀ i, ¬ occursAt s ['\r', '\n'] i) → normalizeCRLF s = s) ∧
    (∀ t, normalizeCRLF ('\r' :: '\n' :: t) = '\n' :: normalizeCRLF t) := by
  refine ⟨?_, normalizeCRLF_no_crlf, ?_⟩
  · intro c s r res hok
    cases h : strIndex (normalizeCRLF c) (normalizeCRLF s) with
    | none =>
      simp only [performEdit] at hok
      rw [h] at hok
      cases hok
    | some i0 =>
      obtain ⟨hocc0, _⟩ := (strIndex_some_iff _ _ i0).mp h
      by_cases hrem : strIndex
          ((normalizeCRLF c).drop (i0 + (normalizeCRLF s).length))
          (normalizeCRLF s) = none
      · simp only [performEdit] at hok
        rw [h] at hok
        simp only [hrem, ne_eq, not_true_eq_false, if_false, ite_not,
          if_true, Except.ok.injEq] at hok
        exact ⟨i0, hocc0, hok.symm⟩
      · simp only [performEdit] at hok
        rw [h] at hok
        simp only [hrem, ne_eq, not_false_eq_true, if_true] at hok
        cases hok
  · intro t
    simp [normalizeCRLF]

/-- Claim C8: with the empty search block `performEdit` never succeeds: the
empty search occurs at every position of the normalized content, and the
ambiguity check then fires, so the call always fails with the
ambiguous-edit error. -/
theorem c8_performEdit_empty_search (c r : Str) :
    performEdit c [] r = .error .ambiguousEdit ∧
    (∀ i, occursAt (normalizeCRLF c) [] i ↔ i ≤ (normalizeCRLF c).length) := by
  constructor
  · have hnil : normalizeCRLF ([] : Str) = [] := rfl
    simp only [performEdit, hnil]
    rw [strIndex_nil_pat]
    simp [strIndex_nil_pat]
  · intro i
    simp [occursAt, startsWith_nil_pat]

/-- Claim C9: `performEdit` fails with the search-not-found error exactly
when the normalized search occurs nowhere in the normalized content, and
the error carries the literal un-normalized search text as supplied by the
caller. -/
theorem c9_performEdit_not_found_iff (c s r : Str) :
    performEdit c s r = .error (.searchNotFound s) ↔
      ∀ i, ¬ occursAt (normalizeCRLF c) (normalizeCRLF s) i := by
  cases h : strIndex (normalizeCRLF c) (normalizeCRLF s) with
  | none =>
    simp only [performEdit]
    rw [h]
    simpa using (strIndex_none_iff _ _).mp h
  | some i0 =>
    obtain ⟨hocc0, _⟩ := (strIndex_some_iff _ _ i0).mp h
    simp only [performEdit]
    rw [h]
    constructor
    · intro hc
      by_cases hrem : strIndex
          ((normalizeCRLF c).drop (i0 + (normalizeCRLF s).length))
          (normalizeCRLF s) = none
      · simp [hrem] at hc
      · simp [hrem] at hc
    · intro hall
      exact absurd hocc0 (hall i0)


-- lemmas about dropWhile, trimming, joining and splitting

theorem dropWhile_append_all (p : Char → Bool) :
    ∀ (xs ys : Str), (∀ c ∈ xs, p c = true) →
      (xs ++ ys).dropWhile p = ys.dropWhile p
  | [], _, _ => rfl
  | x :: xs, ys, h => by
    rw [List.cons_append, List.dropWhile_cons]
    rw [h x (List.mem_cons_self x xs), if_pos rfl]
    exact dropWhile_append_all p xs ys (fun c hc => h c (List.mem_cons_of_mem x hc))

theorem dropWhile_cons_false (p : Char → Bool) (c : Char) (t : Str)
    (hc : p c = false) : (c :: t).dropWhile p = c :: t := by
  rw [List.dropWhile_cons, hc]
  simp

theorem dropWhile_append_stop (p : Char → Bool) :
    ∀ (as : Str) (d : Char) (bs : Str), p d = false →
      (as ++ d :: bs).dropWhile p = as.dropWhile p ++ d :: bs
  | [], d, bs, hd => by
    rw [List.nil_append, List.dropWhile_nil, List.nil_append]
    exact dropWhile_cons_false p d bs hd
  | a :: as, d, bs, hd => by
    rw [List.cons_append, List.dropWhile_cons, List.dropWhile_cons]
    cases hpa : p a with
    | true =>
      rw [if_pos rfl, if_pos rfl]
      exact dropWhile_append_stop p as d bs hd
    | false =>
      rw [if_neg (by simp), if_neg (by simp), List.cons_append]

theorem mem_of_mem_dropWhile (p : Char → Bool) :
    ∀ (xs : Str) (x : Char), x ∈ xs.dropWhile p → x ∈ xs
  | [], _, h => h
  | a :: as, x, h => by
    rw [List.dropWhile_cons] at h
    by_cases hpa : p a = true
    · rw [if_pos hpa] at h
      exact List.mem_cons_of_mem a (mem_of_mem_dropWhile p as x h)
    · rw [if_neg hpa] at h
      exact h

/-- The central trimming fact: whitespace padding around a chunk whose first
character and a later anchor character are non-space trims to the chunk,
right-trimming only the part after the anchor. -/
theorem trimSpace_sandwich (w1 w2 M A : Str) (c d : Char)
    (hw1 : ∀ x ∈ w1, isGoSpace x = true) (hw2 : ∀ x ∈ w2, isGoSpace x = true)
    (hc : isGoSpace c = false) (hd : isGoSpace d = false) :
    trimSpace (w1 ++ (c :: M ++ d :: A) ++ w2) = c :: M ++ d :: trimRight0 A := by
  have key : w1 ++ (c :: M ++ d :: A) ++ w2
      = w1 ++ (c :: (M ++ (d :: (A ++ w2)))) := by
    simp [List.append_assoc]
  rw [key]
  unfold trimSpace trimLeft
  rw [dropWhile_append_all isGoSpace w1 _ hw1]
  rw [dropWhile_cons_false isGoSpace c _ hc]
  unfold trimRight0
  have rev : (c :: (M ++ (d :: (A ++ w2)))).reverse
      = w2.reverse ++ (A.reverse ++ (d :: (M.reverse ++ [c]))) := by
    simp
  rw [rev]
  rw [dropWhile_append_all isGoSpace w2.reverse _
    (fun x hx => hw2 x (List.mem_reverse.mp hx))]
  rw [dropWhile_append_stop isGoSpace A.reverse d _ hd]
  simp

theorem joinWith_cons_ne (sep : Char) (l : Str) (ls : List Str)
    (h : ls ≠ []) : joinWith sep (l :: ls) = l ++ sep :: joinWith sep ls := by
  cases ls with
  | nil => exact absurd rfl h
  | cons a as => rfl

theorem joinWith_append_last (sep : Char) :
    ∀ (ls : List Str) (a t : Str),
      joinWith sep (ls ++ [a ++ t]) = joinWith sep (ls ++ [a]) ++ t
  | [], a, t => rfl
  | h :: hs, a, t => by
    rw [List.cons_append, joinWith_cons_ne sep h _ (by simp)]
    rw [List.cons_append, joinWith_cons_ne sep h _ (by simp)]
    rw [joinWith_append_last sep hs a t]
    simp

theorem splitLines_ne_nil : ∀ (s : Str), splitLines s ≠ []
  | [] => by simp [splitLines]
  | c :: t => by
    by_cases hc : c = '\n'
    · simp [splitLines, hc]
    · simp only [splitLines, if_neg hc]
      cases hsp : splitLines t with
      | nil => simp [consHead]
      | cons a as => simp [consHead]

theorem splitLines_no_newline :
    ∀ (l : Str), '\n' ∉ l → splitLines l = [l]
  | [], _ => rfl
  | c :: t, h => by
    have hc : ¬ (c = '\n') := fun hh => h (hh ▸ List.mem_cons_self c t)
    have ht : '\n' ∉ t := fun hh => h (List.mem_cons_of_mem c hh)
    simp only [splitLines, if_neg hc]
    rw [splitLines_no_newline t ht]
    rfl

theorem splitLines_append_cons :
    ∀ (l rest : Str), '\n' ∉ l →
      splitLines (l ++ '\n' :: rest) = l :: splitLines rest
  | [], rest, _ => by
    simp [splitLines]
  | c :: t, rest, h => by
    have hc : ¬ (c = '\n') := fun hh => h (hh ▸ List.mem_cons_self c t)
    have ht : '\n' ∉ t := fun hh => h (List.mem_cons_of_mem c hh)
    rw [List.cons_append]
    simp only [splitLines, if_neg hc]
    rw [splitLines_append_cons t rest ht]
    rfl

theorem splitLines_joinWith :
    ∀ (ls : List Str), ls ≠ [] → (∀ l ∈ ls, '\n' ∉ l) →
      splitLines (joinWith '\n' ls) = ls
  | [], h, _ => absurd rfl h
  | [l], _, hn => by
    show splitLines (joinWith '\n' [l]) = [l]
    rw [show joinWith '\n' [l] = l from rfl]
    exact splitLines_no_newline l (hn l (List.mem_singleton.mpr rfl))
  | l :: l2 :: ls, _, hn => by
    rw [joinWith_cons_ne '\n' l _ (by simp)]
    rw [splitLines_append_cons l _ (hn l (List.mem_cons_self _ _))]
    rw [splitLines_joinWith (l2 :: ls) (by simp)
      (fun x hx => hn x (List.mem_cons_of_mem l hx))]

theorem mem_splitLines_no_newline :
    ∀ (s l : Str), l ∈ splitLines s → '\n' ∉ l
  | [], l, h => by
    simp [splitLines] at h
    subst h
    simp
  | c :: t, l, h => by
    by_cases hc : c = '\n'
    · subst hc
      simp [splitLines] at h
      rcases h with rfl | h
      · simp
      · exact mem_splitLines_no_newline t l h
    · simp only [splitLines, if_neg hc] at h
      cases hsp : splitLines t with
      | nil => exact absurd hsp (splitLines_ne_nil t)
      | cons a as =>
        rw [hsp] at h
        simp only [consHead, List.mem_cons] at h
        rcases h with rfl | h
        · intro hmem
          rcases List.mem_cons.mp hmem with hh | hh
          · exact hc hh.symm
          · exact mem_splitLines_no_newline t a
              (hsp ▸ List.mem_cons_self a as) hh
        · exact mem_splitLines_no_newline t l
            (hsp ▸ List.mem_cons_of_mem a h)

-- lemmas about the parseDiff scanner

theorem scanLine_search (st : ScanState) (l : Str)
    (h : startsWith l searchMarker = true) :
    scanLine st l = { st with inSearch := true, inReplace := false } := by
  simp [scanLine, h]

theorem scanLine_sep (st : ScanState) (l : Str)
    (h1 : startsWith l searchMarker = false)
    (h2 : startsWith l sepMarker = true) :
    scanLine st l = { st with inSearch := false, inReplace := true } := by
  simp [scanLine, h1, h2]

theorem scanLine_replace_marker (st : ScanState) (l : Str)
    (h1 : startsWith l searchMarker = false)
    (h2 : startsWith l sepMarker = false)
    (h3 : startsWith l replaceMarker = true) :
    scanLine st l = { st with inSearch := false, inReplace := false } := by
  simp [scanLine, h1, h2, h3]

theorem scanLine_in_search (st : ScanState) (l : Str)
    (hno : noMarkerLine l) (hs : st.inSearch = true) :
    scanLine st l = { st with searchLines := st.searchLines ++ [l] } := by
  obtain ⟨h1, h2, h3⟩ := hno
  simp [scanLine, h1, h2, h3, hs]

theorem scanLine_in_replace (st : ScanState) (l : Str)
    (hno : noMarkerLine l) (hs : st.inSearch = false)
    (hr : st.inReplace = true) :
    scanLine st l = { st with replaceLines := st.replaceLines ++ [l] } := by
  obtain ⟨h1, h2, h3⟩ := hno
  simp [scanLine, h1, h2, h3, hs, hr]

theorem scanLine_idle (st : ScanState) (l : Str)
    (hno : noMarkerLine l) (hs : st.inSearch = false)
    (hr : st.inReplace = false) :
    scanLine st l = st := by
  obtain ⟨h1, h2, h3⟩ := hno
  simp [scanLine, h1, h2, h3, hs, hr]

theorem foldl_scan_search :
    ∀ (ls : List Str) (S R : List Str), (∀ l ∈ ls, noMarkerLine l) →
      List.foldl scanLine ⟨S, R, true, false⟩ ls = ⟨S ++ ls, R, true, false⟩
  | [], S, R, _ => by simp
  | l :: ls, S, R, h => by
    rw [List.foldl_cons, scanLine_in_search _ l (h l (List.mem_cons_self _ _)) rfl]
    have ih := foldl_scan_search ls (S ++ [l]) R
      (fun x hx => h x (List.mem_cons_of_mem _ hx))
    simpa using ih

theorem foldl_scan_replace :
    ∀ (ls : List Str) (S R : List Str), (∀ l ∈ ls, noMarkerLine l) →
      List.foldl scanLine ⟨S, R, false, true⟩ ls = ⟨S, R ++ ls, false, true⟩
  | [], S, R, _ => by simp
  | l :: ls, S, R, h => by
    rw [List.foldl_cons, scanLine_in_replace _ l (h l (List.mem_cons_self _ _)) rfl rfl]
    have ih := foldl_scan_replace ls S (R ++ [l])
      (fun x hx => h x (List.mem_cons_of_mem _ hx))
    simpa using ih

theorem foldl_scan_idle :
    ∀ (ls : List Str) (S R : List Str), (∀ l ∈ ls, noMarkerLine l) →
      List.foldl scanLine ⟨S, R, false, false⟩ ls = ⟨S, R, false, false⟩
  | [], _, _, _ => by simp
  | l :: ls, S, R, h => by
    rw [List.foldl_cons, scanLine_idle _ l (h l (List.mem_cons_self _ _)) rfl rfl]
    exact foldl_scan_idle ls S R (fun x hx => h x (List.mem_cons_of_mem _ hx))

-- relations between the three markers

theorem startsWith_false_of_head (a b : Char) (s p : Str)
    (hab : (a == b) = false) : startsWith (a :: s) (b :: p) = false := by
  rw [startsWith_cons_cons, hab, Bool.false_and]

theorem sep_not_search (l : Str) (h : startsWith l sepMarker = true) :
    startsWith l searchMarker = false := by
  obtain ⟨t, rfl⟩ := (startsWith_iff_append _ _).mp h
  exact startsWith_false_of_head '=' '<' _ _ (by decide)

theorem replace_not_search (l : Str) (h : startsWith l replaceMarker = true) :
    startsWith l searchMarker = false := by
  obtain ⟨t, rfl⟩ := (startsWith_iff_append _ _).mp h
  exact startsWith_false_of_head '>' '<' _ _ (by decide)

theorem replace_not_sep (l : Str) (h : startsWith l replaceMarker = true) :
    startsWith l sepMarker = false := by
  obtain ⟨t, rfl⟩ := (startsWith_iff_append _ _).mp h
  exact startsWith_false_of_head '>' '=' _ _ (by decide)

/-- Claim C4: for every diff text made of a well-formed marker triple — a
line starting with the search marker, at least one non-marker search line,
a line starting with the separator, zero or more non-marker replace lines,
and a line starting with the replace marker — surrounded by arbitrary
whitespace, `parseDiff` succeeds and returns exactly the search lines and
the replace lines, each joined by single newlines. -/
theorem c4_parseDiff_well_formed
    (wpre wpost smLine sepLine rmLine : Str) (searchLs replaceLs : List Str)
    (hwpre : ∀ x ∈ wpre, isGoSpace x = true)
    (hwpost : ∀ x ∈ wpost, isGoSpace x = true)
    (hsm : startsWith smLine searchMarker = true)
    (hsep : startsWith sepLine sepMarker = true)
    (hrm : startsWith rmLine replaceMarker = true)
    (hsmn : '\n' ∉ smLine) (hsepn : '\n' ∉ sepLine) (hrmn : '\n' ∉ rmLine)
    (hsearch : ∀ l ∈ searchLs, noMarkerLine l ∧ '\n' ∉ l)
    (hreplace : ∀ l ∈ replaceLs, noMarkerLine l ∧ '\n' ∉ l)
    (hne : searchLs ≠ []) :
    parseDiff (wpre ++ joinWith '\n'
        (smLine :: (searchLs ++ [sepLine] ++ replaceLs ++ [rmLine])) ++ wpost)
      = .ok (joinWith '\n' searchLs, joinWith '\n' replaceLs) := by
  obtain ⟨tsm, hsm_eq⟩ := (startsWith_iff_append _ _).mp hsm
  obtain ⟨trm, hrm_eq⟩ := (startsWith_iff_append _ _).mp hrm
  have hjoin : ∀ (A : Str),
      joinWith '\n' (smLine ::
          (searchLs ++ [sepLine] ++ replaceLs ++ [replaceMarker ++ A]))
        = '<' :: (("<<<<<< SEARCH".data ++ tsm) ++ '\n' ::
            joinWith '\n' (searchLs ++ [sepLine] ++ replaceLs ++
              [">>>>>>> REPLAC".data]))
          ++ 'E' :: A := by
    intro A
    rw [joinWith_cons_ne '\n' smLine _ (by simp)]
    have h1 : replaceMarker ++ A = ">>>>>>> REPLAC".data ++ ('E' :: A) := by
      show (">>>>>>> REPLAC".data ++ ['E']) ++ A = _
      simp
    rw [h1, joinWith_append_last '\n' (searchLs ++ [sepLine] ++ replaceLs) _ _]
    rw [hsm_eq]
    rw [show searchMarker = '<' :: "<<<<<< SEARCH".data from rfl]
    simp [List.append_assoc]
  have htrmn : '\n' ∉ trm := by
    intro hh
    exact hrmn (hrm_eq ▸ List.mem_append.mpr (Or.inr hh))
  have htr0 : '\n' ∉ trimRight0 trm := by
    intro hh
    unfold trimRight0 at hh
    rw [List.mem_reverse] at hh
    exact htrmn (List.mem_reverse.mp (mem_of_mem_dropWhile isGoSpace _ _ hh))
  have hlast : '\n' ∉ replaceMarker ++ trimRight0 trm := by
    intro hh
    rcases List.mem_append.mp hh with h1 | h1
    · exact absurd h1 (by decide)
    · exact htr0 h1
  have hnolines : ∀ l ∈ smLine ::
      (searchLs ++ [sepLine] ++ replaceLs ++ [replaceMarker ++ trimRight0 trm]),
      '\n' ∉ l := by
    intro l hl
    rcases List.mem_cons.mp hl with rfl | hl
    · exact hsmn
    · rcases List.mem_append.mp hl with hl | hl
      · rcases List.mem_append.mp hl with hl | hl
        · rcases List.mem_append.mp hl with hl | hl
          · exact (hsearch l hl).2
          · rw [List.mem_singleton] at hl
            subst hl
            exact hsepn
        · exact (hreplace l hl).2
      · rw [List.mem_singleton] at hl
        subst hl
        exact hlast
  have hlaststart : startsWith (replaceMarker ++ trimRight0 trm) replaceMarker
      = true := startsWith_append_self _ _
  have e1 : scanLine initState smLine = (⟨[], [], true, false⟩ : ScanState) := by
    rw [scanLine_search initState smLine hsm]
    rfl
  have e2 : List.foldl scanLine (⟨[], [], true, false⟩ : ScanState) searchLs
      = ⟨searchLs, [], true, false⟩ := by
    have := foldl_scan_search searchLs [] [] (fun l hl => (hsearch l hl).1)
    simpa using this
  have e3 : List.foldl scanLine (⟨searchLs, [], true, false⟩ : ScanState)
      [sepLine] = ⟨searchLs, [], false, true⟩ := by
    rw [List.foldl_cons, List.foldl_nil]
    rw [scanLine_sep _ sepLine (sep_not_search sepLine hsep) hsep]
  have e4 : List.foldl scanLine (⟨searchLs, [], false, true⟩ : ScanState)
      replaceLs = ⟨searchLs, replaceLs, false, true⟩ := by
    have := foldl_scan_replace replaceLs searchLs [] (fun l hl => (hreplace l hl).1)
    simpa using this
  have e5 : List.foldl scanLine (⟨searchLs, replaceLs, false, true⟩ : ScanState)
      [replaceMarker ++ trimRight0 trm] = ⟨searchLs, replaceLs, false, false⟩ := by
    rw [List.foldl_cons, List.foldl_nil]
    rw [scanLine_replace_marker _ _ (replace_not_search _ hlaststart)
      (replace_not_sep _ hlaststart) hlaststart]
  have hscan : scanLines (smLine ::
      (searchLs ++ [sepLine] ++ replaceLs ++ [replaceMarker ++ trimRight0 trm]))
      = ⟨searchLs, replaceLs, false, false⟩ := by
    unfold scanLines
    rw [List.foldl_cons, e1]
    rw [List.foldl_append, List.foldl_append, List.foldl_append]
    rw [e2, e3, e4, e5]
  simp only [parseDiff]
  rw [hrm_eq, hjoin trm]
  rw [trimSpace_sandwich wpre wpost _ trm '<' 'E' hwpre hwpost
    (by decide) (by decide)]
  rw [← hjoin (trimRight0 trm)]
  rw [splitLines_joinWith _ (by simp) hnolines]
  rw [hscan]
  rw [if_neg (fun h => hne (List.length_eq_zero.mp h))]

theorem startsWith_self (s : Str) : startsWith s s = true :=
  (startsWith_iff_append s s).mpr ⟨[], by simp⟩

theorem trimSpace_anchor (M A : Str) (c d : Char)
    (hc : isGoSpace c = false) (hd : isGoSpace d = false) :
    trimSpace (c :: M ++ d :: A) = c :: M ++ d :: trimRight0 A := by
  have := trimSpace_sandwich [] [] M A c d (by simp) (by simp) hc hd
  simpa using this

theorem trimSpace_joinWith_block (first last : Str) (mid : List Str)
    (c : Char) (f k : Str) (d : Char)
    (hfirst : first = c :: f) (hlast : last = k ++ [d])
    (hc : isGoSpace c = false) (hd : isGoSpace d = false) :
    trimSpace (joinWith '\n' (first :: (mid ++ [last])))
      = joinWith '\n' (first :: (mid ++ [last])) := by
  have hform : joinWith '\n' (first :: (mid ++ [last]))
      = c :: (f ++ '\n' :: joinWith '\n' (mid ++ [k])) ++ d :: ([] : Str) := by
    rw [joinWith_cons_ne '\n' first _ (by simp), hlast, hfirst]
    rw [joinWith_append_last '\n' mid k [d]]
    simp [List.append_assoc]
  rw [hform, trimSpace_anchor _ _ c d hc hd]
  rw [show trimRight0 ([] : Str) = ([] : Str) from rfl]

/-- Claim C7, counterexample to the claim as stated: in a diff with two
search markers the search fragment keeps the line collected after the first
marker — the second marker does not discard it, so the fragment is not only
the lines after the second marker. -/
theorem c7_counterexample :
    parseDiff "<<<<<<< SEARCH\na\n<<<<<<< SEARCH\nb\n=======\nc\n>>>>>>> REPLACE".data
      = .ok ("a\nb".data, "c".data) ∧ "a\nb".data ≠ "b".data :=
  ⟨rfl, by decide⟩

/-- Claim C7 (amended): a second search marker switches back to collecting
search lines without discarding those already collected — the returned
search fragment is the lines collected after the first marker followed by
the lines collected after the second, in order. -/
theorem c7_parseDiff_two_search_markers (as bs cs : List Str)
    (has : ∀ l ∈ as, noMarkerLine l ∧ '\n' ∉ l)
    (hbs : ∀ l ∈ bs, noMarkerLine l ∧ '\n' ∉ l)
    (hcs : ∀ l ∈ cs, noMarkerLine l ∧ '\n' ∉ l)
    (hne : as ++ bs ≠ []) :
    parseDiff (joinWith '\n' (searchMarker ::
        (as ++ [searchMarker] ++ bs ++ [sepMarker] ++ cs ++ [replaceMarker])))
      = .ok (joinWith '\n' (as ++ bs), joinWith '\n' cs) := by
  have htrim := trimSpace_joinWith_block searchMarker replaceMarker
    (as ++ [searchMarker] ++ bs ++ [sepMarker] ++ cs)
    '<' "<<<<<< SEARCH".data ">>>>>>> REPLAC".data 'E'
    rfl rfl (by decide) (by decide)
  have hnl : ∀ l ∈ searchMarker ::
      (as ++ [searchMarker] ++ bs ++ [sepMarker] ++ cs ++ [replaceMarker]),
      '\n' ∉ l := by
    intro l hl
    rcases List.mem_cons.mp hl with rfl | hl
    · decide
    · rcases List.mem_append.mp hl with hl | hl
      · rcases List.mem_append.mp hl with hl | hl
        · rcases List.mem_append.mp hl with hl | hl
          · rcases List.mem_append.mp hl with hl | hl
            · rcases List.mem_append.mp hl with hl | hl
              · exact (has l hl).2
              · rw [List.mem_singleton] at hl
                subst hl
                decide
            · exact (hbs l hl).2
          · rw [List.mem_singleton] at hl
            subst hl
            decide
        · exact (hcs l hl).2
      · rw [List.mem_singleton] at hl
        subst hl
        decide
  have e1 : scanLine initState searchMarker = (⟨[], [], true, false⟩ : ScanState) := by
    rw [scanLine_search initState searchMarker (startsWith_self _)]
    rfl
  have e2 : List.foldl scanLine (⟨[], [], true, false⟩ : ScanState) as
      = ⟨as, [], true, false⟩ := by
    have := foldl_scan_search as [] [] (fun l hl => (has l hl).1)
    simpa using this
  have e3 : List.foldl scanLine (⟨as, [], true, false⟩ : ScanState)
      [searchMarker] = ⟨as, [], true, false⟩ := by
    rw [List.foldl_cons, List.foldl_nil]
    rw [scanLine_search _ searchMarker (startsWith_self _)]
  have e4 : List.foldl scanLine (⟨as, [], true, false⟩ : ScanState) bs
      = ⟨as ++ bs, [], true, false⟩ :=
    foldl_scan_search bs as [] (fun l hl => (hbs l hl).1)
  have e5 : List.foldl scanLine (⟨as ++ bs, [], true, false⟩ : ScanState)
      [sepMarker] = ⟨as ++ bs, [], false, true⟩ := by
    rw [List.foldl_cons, List.foldl_nil]
    rw [scanLine_sep _ sepMarker (sep_not_search sepMarker (startsWith_self _))
      (startsWith_self _)]
  have e6 : List.foldl scanLine (⟨as ++ bs, [], false, true⟩ : ScanState) cs
      = ⟨as ++ bs, cs, false, true⟩ := by
    have := foldl_scan_replace cs (as ++ bs) [] (fun l hl => (hcs l hl).1)
    simpa using this
  have e7 : List.foldl scanLine (⟨as ++ bs, cs, false, true⟩ : ScanState)
      [replaceMarker] = ⟨as ++ bs, cs, false, false⟩ := by
    rw [List.foldl_cons, List.foldl_nil]
    rw [scanLine_replace_marker _ _
      (replace_not_search _ (startsWith_self _))
      (replace_not_sep _ (startsWith_self _)) (startsWith_self _)]
  have hscan : scanLines (searchMarker ::
      (as ++ [searchMarker] ++ bs ++ [sepMarker] ++ cs ++ [replaceMarker]))
      = ⟨as ++ bs, cs, false, false⟩ := by
    unfold scanLines
    rw [List.foldl_cons, e1]
    rw [List.foldl_append, List.foldl_append, List.foldl_append,
      List.foldl_append, List.foldl_append]
    rw [e2, e3, e4, e5, e6, e7]
  simp only [parseDiff]
  rw [htrim]
  rw [splitLines_joinWith _ (by simp) hnl]
  rw [hscan]
  rw [if_neg (fun h => hne (List.length_eq_zero.mp h))]

/-- Claim C6: `parseDiff` fails with the no-search-block error exactly when
the scanner collected zero search lines; in particular the empty diff, any
diff whose lines carry no marker at all, and the diff whose search section
is literally empty all fail this way, returning no fragments. -/
theorem c6_parseDiff_no_search_block :
    (∀ d : Str, parseDiff d = .error .noSearchBlockFound ↔
      (scanLines (splitLines (trimSpace d))).searchLines = []) ∧
    parseDiff [] = .error .noSearchBlockFound ∧
    (∀ d : Str, (∀ l ∈ splitLines (trimSpace d), noMarkerLine l) →
      parseDiff d = .error .noSearchBlockFound) ∧
    parseDiff "<<<<<<< SEARCH\n=======\nreplacement\n>>>>>>> REPLACE".data
      = .error .noSearchBlockFound := by
  refine ⟨?_, rfl, ?_, rfl⟩
  · intro d
    simp only [parseDiff]
    by_cases h : (scanLines (splitLines (trimSpace d))).searchLines.length = 0
    · rw [if_pos h]
      constructor
      · intro _
        exact List.length_eq_zero.mp h
      · intro _
        rfl
    · rw [if_neg h]
      constructor
      · intro hc
        cases hc
      · intro hl
        exact absurd (by rw [hl]; rfl :
          (scanLines (splitLines (trimSpace d))).searchLines.length = 0) h
  · intro d hall
    have hid : scanLines (splitLines (trimSpace d)) = initState :=
      foldl_scan_idle (splitLines (trimSpace d)) [] [] hall
    simp only [parseDiff, hid]
    rfl

theorem scanLine_mem_search (st : ScanState) (x l : Str)
    (h : l ∈ (scanLine st x).searchLines) :
    l ∈ st.searchLines ∨ (l = x ∧ noMarkerLine x) := by
  unfold scanLine at h
  cases m1 : startsWith x searchMarker with
  | true => rw [m1, if_pos rfl] at h; exact Or.inl h
  | false =>
    rw [m1, if_neg (by simp)] at h
    cases m2 : startsWith x sepMarker with
    | true => rw [m2, if_pos rfl] at h; exact Or.inl h
    | false =>
      rw [m2, if_neg (by simp)] at h
      cases m3 : startsWith x replaceMarker with
      | true => rw [m3, if_pos rfl] at h; exact Or.inl h
      | false =>
        rw [m3, if_neg (by simp)] at h
        have hno : noMarkerLine x := ⟨m1, m2, m3⟩
        by_cases m4 : st.inSearch = true
        · rw [if_pos m4] at h
          rcases List.mem_append.mp h with h5 | h5
          · exact Or.inl h5
          · exact Or.inr ⟨List.mem_singleton.mp h5, hno⟩
        · rw [if_neg m4] at h
          by_cases m5 : st.inReplace = true
          · rw [if_pos m5] at h
            exact Or.inl h
          · rw [if_neg m5] at h
            exact Or.inl h

theorem scanLine_mem_replace (st : ScanState) (x l : Str)
    (h : l ∈ (scanLine st x).replaceLines) :
    l ∈ st.replaceLines ∨ (l = x ∧ noMarkerLine x) := by
  unfold scanLine at h
  cases m1 : startsWith x searchMarker with
  | true => rw [m1, if_pos rfl] at h; exact Or.inl h
  | false =>
    rw [m1, if_neg (by simp)] at h
    cases m2 : startsWith x sepMarker with
    | true => rw [m2, if_pos rfl] at h; exact Or.inl h
    | false =>
      rw [m2, if_neg (by simp)] at h
      cases m3 : startsWith x replaceMarker with
      | true => rw [m3, if_pos rfl] at h; exact Or.inl h
      | false =>
        rw [m3, if_neg (by simp)] at h
        have hno : noMarkerLine x := ⟨m1, m2, m3⟩
        by_cases m4 : st.inSearch = true
        · rw [if_pos m4] at h
          exact Or.inl h
        · rw [if_neg m4] at h
          by_cases m5 : st.inReplace = true
          · rw [if_pos m5] at h
            rcases List.mem_append.mp h with h5 | h5
            · exact Or.inl h5
            · exact Or.inr ⟨List.mem_singleton.mp h5, hno⟩
          · rw [if_neg m5] at h
            exact Or.inl h

theorem foldl_scan_mem_search :
    ∀ (ls : List Str) (st : ScanState) (l : Str),
      l ∈ (List.foldl scanLine st ls).searchLines →
      l ∈ st.searchLines ∨ (l ∈ ls ∧ noMarkerLine l)
  | [], _, _, h => Or.inl h
  | x :: ls, st, l, h => by
    rw [List.foldl_cons] at h
    rcases foldl_scan_mem_search ls (scanLine st x) l h with h1 | h1
    · rcases scanLine_mem_search st x l h1 with h2 | h2
      · exact Or.inl h2
      · obtain ⟨rfl, hno⟩ := h2
        exact Or.inr ⟨List.mem_cons_self _ _, hno⟩
    · exact Or.inr ⟨List.mem_cons_of_mem x h1.1, h1.2⟩

theorem foldl_scan_mem_replace :
    ∀ (ls : List Str) (st : ScanState) (l : Str),
      l ∈ (List.foldl scanLine st ls).replaceLines →
      l ∈ st.replaceLines ∨ (l ∈ ls ∧ noMarkerLine l)
  | [], _, _, h => Or.inl h
  | x :: ls, st, l, h => by
    rw [List.foldl_cons] at h
    rcases foldl_scan_mem_replace ls (scanLine st x) l h with h1 | h1
    · rcases scanLine_mem_replace st x l h1 with h2 | h2
      · exact Or.inl h2
      · obtain ⟨rfl, hno⟩ := h2
        exact Or.inr ⟨List.mem_cons_self _ _, hno⟩
    · exact Or.inr ⟨List.mem_cons_of_mem x h1.1, h1.2⟩

/-- Claim C10: whenever `parseDiff` succeeds, no line of the returned search
fragment and no line of the returned replace fragment begins with any of
the three markers — marker lines are never incorporated into a fragment. -/
theorem c10_parseDiff_fragments_no_marker (d sb rb : Str)
    (h : parseDiff d = .ok (sb, rb)) :
    (∀ l ∈ splitLines sb, noMarkerLine l) ∧
    (∀ l ∈ splitLines rb, noMarkerLine l) := by
  simp only [parseDiff] at h
  by_cases hlen : (scanLines (splitLines (trimSpace d))).searchLines.length = 0
  · rw [if_pos hlen] at h
    cases h
  · rw [if_neg hlen] at h
    rw [Except.ok.injEq, Prod.mk.injEq] at h
    obtain ⟨hsb, hrb⟩ := h
    have hsmem : ∀ l ∈ (scanLines (splitLines (trimSpace d))).searchLines,
        noMarkerLine l ∧ '\n' ∉ l := by
      intro l hl
      rcases foldl_scan_mem_search (splitLines (trimSpace d)) initState l hl
        with h1 | h1
      · exact absurd h1 (List.not_mem_nil l)
      · exact ⟨h1.2, mem_splitLines_no_newline _ l h1.1⟩
    have hrmem : ∀ l ∈ (scanLines (splitLines (trimSpace d))).replaceLines,
        noMarkerLine l ∧ '\n' ∉ l := by
      intro l hl
      rcases foldl_scan_mem_replace (splitLines (trimSpace d)) initState l hl
        with h1 | h1
      · exact absurd h1 (List.not_mem_nil l)
      · exact ⟨h1.2, mem_splitLines_no_newline _ l h1.1⟩
    have hsne : (scanLines (splitLines (trimSpace d))).searchLines ≠ [] :=
      fun hh => hlen (by rw [hh]; rfl)
    constructor
    · rw [← hsb, splitLines_joinWith _ hsne (fun l hl => (hsmem l hl).2)]
      exact fun l hl => (hsmem l hl).1
    · by_cases hrne : (scanLines (splitLines (trimSpace d))).replaceLines = []
      · rw [← hrb, hrne]
        intro l hl
        rw [show joinWith '\n' ([] : List Str) = [] from rfl] at hl
        rw [show splitLines [] = [[]] from rfl, List.mem_singleton] at hl
        subst hl
        decide
      · rw [← hrb, splitLines_joinWith _ hrne (fun l hl => (hrmem l hl).2)]
        exact fun l hl => (hrmem l hl).1

-- witnesses: the claim theorems instantiated at concrete inputs

/-- Witness for the amended claim C1 at a concrete input. -/
theorem c1_witness :
    performEdit "hello world".data "world".data "there".data
      = .ok ((normalizeCRLF "hello world".data).take 6 ++ "there".data ++
          (normalizeCRLF "hello world".data).drop
            (6 + (normalizeCRLF "world".data).length)) :=
  c1_performEdit_unique_success "hello world".data "world".data "there".data 6
    (by decide) (by decide) (by decide)

/-- Witness for the amended claim C2 at a concrete input. -/
theorem c2_witness :
    performEdit "abab".data "ab".data "z".data = .error .ambiguousEdit :=
  c2_performEdit_ambiguous "abab".data "ab".data "z".data 0 2
    (by decide) (by decide) (by decide)

/-- Witness for claim C3 at a concrete input. -/
theorem c3_witness :
    performEdit "aa.bb.aa".data "aa".data "X".data = .error .ambiguousEdit ↔
      ∃ i, (occursAt (normalizeCRLF "aa.bb.aa".data)
              (normalizeCRLF "aa".data) i ∧
             ∀ j, j < i → ¬ occursAt (normalizeCRLF "aa.bb.aa".data)
               (normalizeCRLF "aa".data) j) ∧
           ∃ k, occursAt
             ((normalizeCRLF "aa.bb.aa".data).drop
               (i + (normalizeCRLF "aa".data).length))
             (normalizeCRLF "aa".data) k :=
  c3_performEdit_ambiguous_iff "aa.bb.aa".data "aa".data "X".data

/-- Witness for claim C4 at a concrete input. -/
theorem c4_witness :
    parseDiff ("\n".data ++ joinWith '\n' ("<<<<<<< SEARCH".data ::
        (["foo".data] ++ ["=======".data] ++ ["bar".data] ++
          [">>>>>>> REPLACE".data])) ++ " ".data)
      = .ok (joinWith '\n' ["foo".data], joinWith '\n' ["bar".data]) :=
  c4_parseDiff_well_formed "\n".data " ".data "<<<<<<< SEARCH".data
    "=======".data ">>>>>>> REPLACE".data ["foo".data] ["bar".data]
    (by decide) (by decide) (by decide) (by decide) (by decide)
    (by decide) (by decide) (by decide) (by decide) (by decide) (by decide)

/-- Witness for claim C5 at concrete inputs. -/
theorem c5_witness :
    (∃ i, occursAt (normalizeCRLF "a\r\nb".data) (normalizeCRLF "a\n".data) i ∧
        "Z\rb".data = (normalizeCRLF "a\r\nb".data).take i ++ "Z\r".data ++
          (normalizeCRLF "a\r\nb".data).drop
            (i + (normalizeCRLF "a\n".data).length)) ∧
    normalizeCRLF "x\ry".data = "x\ry".data ∧
    normalizeCRLF ('\r' :: '\n' :: "q".data) = '\n' :: normalizeCRLF "q".data :=
  ⟨c5_performEdit_normalization.1 "a\r\nb".data "a\n".data "Z\r".data
      "Z\rb".data rfl,
   c5_performEdit_normalization.2.1 "x\ry".data
     ((strIndex_none_iff "x\ry".data ['\r', '\n']).mp (by decide)),
   c5_performEdit_normalization.2.2 "q".data⟩

/-- Witness for claim C6 at a concrete input without markers. -/
theorem c6_witness :
    parseDiff "just some text".data = .error .noSearchBlockFound :=
  c6_parseDiff_no_search_block.2.2.1 "just some text".data (by decide)

/-- Witness for the amended claim C7 at a concrete input. -/
theorem c7_witness :
    parseDiff (joinWith '\n' (searchMarker ::
        (["a".data] ++ [searchMarker] ++ ["b".data] ++ [sepMarker] ++
          ["c".data] ++ [replaceMarker])))
      = .ok (joinWith '\n' (["a".data] ++ ["b".data]), joinWith '\n' ["c".data]) :=
  c7_parseDiff_two_search_markers ["a".data] ["b".data] ["c".data]
    (by decide) (by decide) (by decide) (by decide)

/-- Witness for claim C8 at a concrete input. -/
theorem c8_witness :
    performEdit "abc".data [] "r".data = .error .ambiguousEdit ∧
    (∀ i, occursAt (normalizeCRLF "abc".data) [] i ↔
      i ≤ (normalizeCRLF "abc".data).length) :=
  c8_performEdit_empty_search "abc".data "r".data

/-- Witness for claim C9 at a concrete input. -/
theorem c9_witness :
    performEdit "abc".data "zzz".data "r".data
        = .error (.searchNotFound "zzz".data) ↔
      ∀ i, ¬ occursAt (normalizeCRLF "abc".data) (normalizeCRLF "zzz".data) i :=
  c9_performEdit_not_found_iff "abc".data "zzz".data "r".data

/-- Witness for claim C10 at a concrete input. -/
theorem c10_witness :
    (∀ l ∈ splitLines "foo".data, noMarkerLine l) ∧
    (∀ l ∈ splitLines "bar".data, noMarkerLine l) :=
  c10_parseDiff_fragments_no_marker
    "<<<<<<< SEARCH\nfoo\n=======\nbar\n>>>>>>> REPLACE".data
    "foo".data "bar".data rfl
